import Mathlib

/-!
Verification of the VeoForge core: a shallow embedding of the script
segmenter (`splitScript` in `src/api/services/openaiService.js`) and of the
video-generation orchestrator (`generateVideosWithVeo3`,
`simulateProgress`/`simulateSequentialProgress`, `waitForVideoCompletion`,
`estimateVideoGenerationTime` in `src/api/services/veo3Service.js`).

Strings are modelled as lists of characters, JavaScript's
`String.prototype.split(/\s+/).length` as `jsWordCount`,
`String.prototype.trim` as `jsTrim`, and the sentence regex
`/[^.!?]+[.!?]+/g` as `matchSentences`.
-/

/-- Scripts, segments and status strings are modelled as lists of characters. -/
abbrev Str := List Char

/-- Conversion from a Lean string literal to the character-list model. -/
def str (s : String) : Str := s.data

/-- Whitespace predicate used by the models of `trim` and `split(/\s+/)`. -/
def isWS (c : Char) : Bool := c = ' ' || c = '\t' || c = '\n' || c = '\r'

/-- End-of-sentence terminators of the sentence regex `/[^.!?]+[.!?]+/g`. -/
def isTerm (c : Char) : Bool := c = '.' || c = '!' || c = '?'

/-- Model of JavaScript `s.trim()`: strip whitespace from both ends. -/
def jsTrim (s : Str) : Str := ((s.dropWhile isWS).reverse.dropWhile isWS).reverse

/-- Number of maximal whitespace runs in the suffix, given whether the
previous character was whitespace. -/
def wsRunsAux (prevWS : Bool) : Str → Nat
  | [] => 0
  | c :: rest => (if isWS c && !prevWS then 1 else 0) + wsRunsAux (isWS c) rest

/-- Model of JavaScript `s.split(/\s+/).length`, the word count used
throughout `splitScript`.  An empty string splits to `[""]` (count 1);
otherwise the length is the number of maximal whitespace runs plus one
(leading/trailing runs contribute empty fragments, exactly as in JS). -/
def jsWordCount (s : Str) : Nat := if s.isEmpty then 1 else wsRunsAux false s + 1

/-- Worker for the sentence matcher.  `body` holds (reversed) the
non-terminator characters of the sentence being scanned, `term` holds
(reversed) the terminator run that follows it; `term ≠ []` only when
`body ≠ []`.  A trailing fragment without a terminator is dropped, and
leading terminator characters cannot start a match, as with the regex. -/
def msGo (body term : Str) : Str → List Str
  | [] => if body.isEmpty then [] else if term.isEmpty then [] else [body.reverse ++ term.reverse]
  | c :: rest =>
    if isTerm c then
      if body.isEmpty then msGo [] [] rest
      else msGo body (c :: term) rest
    else
      if term.isEmpty then msGo (c :: body) [] rest
      else (body.reverse ++ term.reverse) :: msGo [c] [] rest

/-- Model of `script.match(/[^.!?]+[.!?]+/g)` (returning `[]` for `null`). -/
def matchSentences (s : Str) : List Str := msGo [] [] s

/-- Model of `script.match(/[^.!?]+[.!?]+/g) || [script]`: the sentence list
used by `splitScript` (line 104) and by the borrow repair (line 157). -/
def sentencesOf (s : Str) : List Str :=
  let m := matchSentences s
  if m.isEmpty then [s] else m

/-- Model of `array.join(' ')` / accumulation with `' ' +` separators. -/
def joinSp : List Str → Str
  | [] => []
  | [x] => x
  | x :: y :: xs => x ++ ' ' :: joinSp (y :: xs)

/-- The greedy accumulation loop of `splitScript` (lines 110–141), fused
into one recursion: `cur` is the segment being accumulated and `cnt` its
running word count.  While `cnt` is below the 15-word floor and sentences
remain, the next trimmed sentence is appended (note: when appending would
exceed the 22-word ceiling the source re-tests `currentWordCount <
minWordsFor6Seconds`, which is already guaranteed by the loop guard, so the
`i--; break` arm is unreachable but is kept here verbatim); once the floor
is met the current segment is pushed and a new one starts. -/
def buildRawGo (cur : Str) (cnt : Nat) : List Str → List Str
  | [] => [cur]
  | sn :: rest =>
    if cnt < 15 then
      let t := jsTrim sn
      let w := jsWordCount t
      if cnt + w > 22 then
        if cnt < 15 then buildRawGo (cur ++ ' ' :: t) (cnt + w) rest
        else cur :: buildRawGo (jsTrim sn) (jsWordCount (jsTrim sn)) rest
      else buildRawGo (cur ++ ' ' :: t) (cnt + w) rest
    else cur :: buildRawGo (jsTrim sn) (jsWordCount (jsTrim sn)) rest

/-- The raw-segment phase of `splitScript`: greedy accumulation of the
sentence list into raw segments. -/
def buildRaw : List Str → List Str
  | [] => []
  | sn :: rest => buildRawGo (jsTrim sn) (jsWordCount (jsTrim sn)) rest

/-- The repair pass of `splitScript` (lines 143–183), fuelled so that the
definition is structurally recursive (the fuel is the list length, which is
never exhausted: every step consumes at least one list entry).  For a raw
segment below the 15-word floor that is not the last: (a) if the following
raw segment has more than 15 words and splits into more than one sentence
and the combined count with its first (untrimmed) sentence stays within 22
words, that sentence is borrowed and removed from the donor; (b) otherwise,
if merging the entire following raw segment stays within 30 words, the two
are merged; (c) otherwise the short segment is kept as-is. -/
def repairGo : Nat → List Str → List Str
  | 0, l => l
  | _ + 1, [] => []
  | _ + 1, [seg] => [seg]
  | fuel + 1, seg :: nxt :: rest =>
    let wc := jsWordCount seg
    if wc < 15 then
      let nextWords := jsWordCount nxt
      let nextSentences := sentencesOf nxt
      let borrowed : Option (Str × Str) :=
        if 15 < nextWords then
          match nextSentences with
          | b :: b2 :: bs =>
            if wc + jsWordCount b ≤ 22 then some (seg ++ ' ' :: b, joinSp (b2 :: bs)) else none
          | _ => none
        else none
      match borrowed with
      | some (newSeg, newDonor) => newSeg :: repairGo fuel (newDonor :: rest)
      | none =>
        let merged := seg ++ ' ' :: nxt
        if jsWordCount merged ≤ 30 then merged :: repairGo fuel rest
        else seg :: repairGo fuel (nxt :: rest)
    else seg :: repairGo fuel (nxt :: rest)

/-- The repair pass applied to a raw-segment list. -/
def repairPass (l : List Str) : List Str := repairGo l.length l

/-- Model of `splitScript` (lines 92–197): sentence split, greedy
accumulation into raw segments, then the repair pass. -/
def splitScript (script : Str) : List Str := repairPass (buildRaw (sentencesOf script))

/-- Model of JavaScript `haystack.includes(needle)`. -/
def strIncludes (hay needle : Str) : Bool :=
  match hay with
  | [] => needle.isEmpty
  | _ :: t => needle.isPrefixOf hay || strIncludes t needle

/-- Model of `Math.round` on rationals: `⌊x + 1/2⌋`. -/
def jsMathRound (q : ℚ) : ℤ := ⌊q + 1 / 2⌋

/-- The only field of an input segment read by `estimateVideoGenerationTime`
is `segment.action_timeline?.dialogue` (`none` models a missing field). -/
structure InputSegment where
  dialogue : Option Str
deriving DecidableEq, Repr

/-- Model of `estimateVideoGenerationTime` (lines 653–661): 120 s base time,
×1.5 for `high` quality, ×1.2 when the dialogue exceeds 100 characters,
rounded with `Math.round`. -/
def estimateVideoGenerationTime (segment : InputSegment) (quality : Str) : ℤ :=
  let baseTime : ℚ := 120
  let qualityMultiplier : ℚ := if quality = str "high" then 3 / 2 else 1
  let dialogueLength : Nat := (segment.dialogue.getD []).length
  let complexityMultiplier : ℚ := if dialogueLength > 100 then 6 / 5 else 1
  jsMathRound (baseTime * qualityMultiplier * complexityMultiplier)

/-- One entry of `this.videoStatuses`: the per-job record created by
`generateVideosWithVeo3` and mutated by the progress timers.  The opaque
`prompt`, `operation` and `thumbnail` fields are not modelled (no verified
claim reads them). -/
structure VideoJobStatus where
  id : Str
  status : Str
  progress : Nat
  startTime : ℤ
  estimatedCompletion : ℤ
  quality : Str
  segmentIndex : Nat
  sequential : Bool
  sequencePosition : Option Nat
  totalSequences : Option Nat
  downloadUrl : Option Str
deriving DecidableEq, Repr

/-- The job registry `this.videoStatuses`, as an association list. -/
abbrev Registry := List (Str × VideoJobStatus)

/-- Registry lookup, `this.videoStatuses[videoId]`. -/
def regLookup : Registry → Str → Option VideoJobStatus
  | [], _ => none
  | (k, v) :: rest, id => if k = id then some v else regLookup rest id

/-- Registry assignment, `this.videoStatuses[videoId] = job`. -/
def regSet : Registry → Str → VideoJobStatus → Registry
  | [], id, v => [(id, v)]
  | (k, w) :: rest, id, v => if k = id then (k, v) :: rest else (k, w) :: regSet rest id v

/-- One `(progress, status, delay)` tuple of a simulated-progress table. -/
structure ProgressStep where
  progress : Nat
  status : Str
  delay : Nat
deriving DecidableEq, Repr

/-- The simulated-progress table of `simulateProgress` (lines 566–573). -/
def progressSteps : List ProgressStep :=
  [⟨10, str "Initializing video generation...", 5000⟩,
   ⟨25, str "Processing character details...", 10000⟩,
   ⟨50, str "Generating scene elements...", 15000⟩,
   ⟨75, str "Rendering video frames...", 20000⟩,
   ⟨90, str "Finalizing video...", 25000⟩,
   ⟨100, str "completed", 30000⟩]

/-- The simulated-progress table of `simulateSequentialProgress`
(lines 604–611), whose labels interpolate the sequence position `p` and the
total `t`. -/
def seqProgressSteps (p t : Nat) : List ProgressStep :=
  [⟨10, str "Initializing video " ++ Nat.toDigits 10 p ++ str "/" ++ Nat.toDigits 10 t ++ str "...", 2000⟩,
   ⟨25, str "Processing character continuity for video " ++ Nat.toDigits 10 p ++ str "...", 4000⟩,
   ⟨50, str "Generating scene elements for video " ++ Nat.toDigits 10 p ++ str "...", 6000⟩,
   ⟨75, str "Rendering video frames " ++ Nat.toDigits 10 p ++ str "...", 8000⟩,
   ⟨90, str "Finalizing video " ++ Nat.toDigits 10 p ++ str "...", 10000⟩,
   ⟨100, str "completed", 12000⟩]

/-- The update a firing progress timer applies to a registry entry: set the
progress and status from the step; on the 100% step additionally force the
status to `completed` and set the placeholder download URL. -/
def steppedJob (id : Str) (j : VideoJobStatus) (step : ProgressStep) : VideoJobStatus :=
  let j1 := { j with progress := step.progress, status := step.status }
  if step.progress = 100
    then { j1 with status := str "completed",
                   downloadUrl := some (str "https://example.com/videos/" ++ id ++ str ".mp4") }
    else j1

/-- The body of one scheduled progress-timer callback (lines 576–590 and
614–628, identical in `simulateProgress` and `simulateSequentialProgress`):
if the job id is still present in the registry, apply the step's update.
The only guard in the source is the existence check
`this.videoStatuses && this.videoStatuses[videoId]`. -/
def applyProgressStep (reg : Registry) (id : Str) (step : ProgressStep) : Registry :=
  match regLookup reg id with
  | none => reg
  | some j => regSet reg id (steppedJob id j step)

/-- Registry snapshots as the scheduled timers of one job fire in
delay-ascending order: the initial registry followed by the registry after
each successive step. -/
def registryEvolution (reg : Registry) (id : Str) : List ProgressStep → List Registry
  | [] => [reg]
  | s :: rest => reg :: registryEvolution (applyProgressStep reg id s) id rest

/-- Model of `waitForVideoCompletion` (lines 632–651) run against a stream
of registry snapshots (one per cooperative check): resolves immediately
(`some (0, none)`) when the id has no registry entry, resolves with the
observed job (`some (polls, some j)`) when its status is `completed`, and
otherwise re-polls on the next snapshot; `none` means the provided snapshots
were exhausted with the wait still pending. -/
def waitForVideoCompletionRun : List Registry → Str → Option (Nat × Option VideoJobStatus)
  | [], _ => none
  | reg :: rest, id =>
    match regLookup reg id with
    | none => some (0, none)
    | some j =>
      if j.status = str "completed" then some (0, some j)
      else
        match waitForVideoCompletionRun rest id with
        | none => none
        | some (n, r) => some (n + 1, r)

/-- Outcome of one submission attempt (`convertSegmentToVeo3Prompt` followed
by `callVeo3API`): either an operation id (plus optional thumbnail), or a
thrown error with its message. -/
inductive SubmitRes where
  | ok (id : Str) (thumbnail : Option Str)
  | thrown (msg : Str)
deriving DecidableEq, Repr

/-- One entry of the `videos` array of the batch result: either the
`status: 'processing'` record pushed on success (with `progress: 0` and
`downloadUrl: null`), or the `status: 'error'` record pushed in the catch
block (with `videoId: null`). -/
inductive VideoOutcome where
  | processing (segmentIndex : Nat) (videoId : Str) (estimatedTime : ℤ)
      (thumbnail : Option Str) (sequentialInfo : Option (Nat × Nat))
  | errored (segmentIndex : Nat) (errorMessage : Str) (estimatedTime : ℤ)
      (quotaExceeded : Bool)
deriving DecidableEq, Repr

/-- The `segmentIndex` field of a batch-result entry. -/
def VideoOutcome.segmentIndex : VideoOutcome → Nat
  | .processing i _ _ _ _ => i
  | .errored i _ _ _ => i

/-- The `status` field of a batch-result entry. -/
def VideoOutcome.status : VideoOutcome → Str
  | .processing _ _ _ _ _ => str "processing"
  | .errored _ _ _ _ => str "error"

/-- The fixed human-readable quota message of the catch blocks. -/
def quotaMessage : Str :=
  str "API quota exceeded. Please check your Google AI Studio usage limits."

/-- The quota-error classification of the catch blocks (lines 291 and 356):
the error message contains `429` or `RESOURCE_EXHAUSTED`. -/
def isQuotaErrorMsg (msg : Str) : Bool :=
  strIncludes msg (str "429") || strIncludes msg (str "RESOURCE_EXHAUSTED")

/-- The error record pushed by the catch blocks (lines 296–303, 361–368). -/
def erroredOutcome (i : Nat) (msg : Str) (estimatedTime : ℤ) : VideoOutcome :=
  .errored (i + 1) (if isQuotaErrorMsg msg then quotaMessage else msg) estimatedTime
    (isQuotaErrorMsg msg)

/-- Events of the sequential dispatch, in program order: a submission
attempt for segment `i` (the call into `callVeo3API`), the cooperative wait
observing segment `i`'s job `completed`, the wait resolving for another
reason (proved unreachable), and the catch block recording an error
outcome for segment `i`. -/
inductive DispatchEv where
  | submitted (i : Nat)
  | observedCompleted (i : Nat)
  | waitOther (i : Nat)
  | recordedError (i : Nat)
deriving DecidableEq, Repr

/-- The event recorded when the wait on segment `i`'s job resolves: the wait
observed the `completed` status, or it resolved for another reason (missing
registry entry, or snapshots exhausted — both proved unreachable). -/
def seqWaitEvents (i : Nat) (snaps : List Registry) (id : Str) : List DispatchEv :=
  match waitForVideoCompletionRun snaps id with
  | some (_, some j) =>
    if j.status = str "completed" then [.observedCompleted i] else [.waitOther i]
  | _ => [.waitOther i]

/-- The registry entry created for a successful sequential submission
(lines 234–247): status `processing`, progress 0, and the sequential
bookkeeping fields. -/
def seqInitJob (id : Str) (now estimatedTime : ℤ) (quality : Str) (i n : Nat) :
    VideoJobStatus :=
  { id := id, status := str "processing", progress := 0, startTime := now,
    estimatedCompletion := now + estimatedTime * 1000, quality := quality,
    segmentIndex := i + 1, sequential := true, sequencePosition := some (i + 1),
    totalSequences := some n, downloadUrl := none }

/-- The registry after a sequential job's simulated timers have all fired:
the last snapshot of its timer evolution. -/
def seqRegAfter (reg : Registry) (id : Str) (job : VideoJobStatus) (p t : Nat) : Registry :=
  ((registryEvolution (regSet reg id job) id (seqProgressSteps p t)).getLast?).getD
    (regSet reg id job)

/-- The sequential branch of `generateVideosWithVeo3` (lines 207–305), as a
recursion over the remaining segments.  `i` is the current index, `n` the
total segment count, `now` the (abstract) submission timestamp and `reg`
the registry.  On success the job is registered, its sequential progress
timers are simulated (the registry snapshot evolution), the `processing`
outcome is pushed, and — when a further segment exists — the orchestrator
waits on the snapshots before submitting the next segment.  On a thrown
error the catch block pushes the error outcome and the loop proceeds.
Returns (videos, totalEstimatedTime, final registry, event trace). -/
def seqDispatchGo (submit : Nat → SubmitRes) (quality : Str) (now : ℤ) (n : Nat) :
    List InputSegment → Nat → Registry → List VideoOutcome × ℤ × Registry × List DispatchEv
  | [], _, reg => ([], 0, reg, [])
  | seg :: rest, i, reg =>
    let estimatedTime := estimateVideoGenerationTime seg quality
    match submit i with
    | .ok id thumbnail =>
      let job := seqInitJob id now estimatedTime quality i n
      let waitEvs : List DispatchEv :=
        if rest.isEmpty then []
        else seqWaitEvents i
          (registryEvolution (regSet reg id job) id (seqProgressSteps (i + 1) n)) id
      let r := seqDispatchGo submit quality now n rest (i + 1)
        (seqRegAfter reg id job (i + 1) n)
      (.processing (i + 1) id estimatedTime thumbnail (some (i + 1, n)) :: r.1,
        estimatedTime + r.2.1, r.2.2.1, (DispatchEv.submitted i :: waitEvs) ++ r.2.2.2)
    | .thrown msg =>
      let r := seqDispatchGo submit quality now n rest (i + 1) reg
      (erroredOutcome i msg estimatedTime :: r.1, r.2.1, r.2.2.1,
        DispatchEv.submitted i :: DispatchEv.recordedError i :: r.2.2.2)

/-- The parallel branch of `generateVideosWithVeo3` (lines 306–371): every
segment is attempted independently, with no waiting between submissions.
The simulated-progress timers of parallel jobs fire after dispatch returns
and are not threaded through this recursion (no verified claim reads the
parallel registry).  Returns (videos, totalEstimatedTime, registry). -/
def parDispatchGo (submit : Nat → SubmitRes) (quality : Str) (now : ℤ) :
    List InputSegment → Nat → Registry → List VideoOutcome × ℤ × Registry
  | [], _, reg => ([], 0, reg)
  | seg :: rest, i, reg =>
    let estimatedTime := estimateVideoGenerationTime seg quality
    match submit i with
    | .ok id thumbnail =>
      let job : VideoJobStatus :=
        { id := id, status := str "processing", progress := 0, startTime := now,
          estimatedCompletion := now + estimatedTime * 1000, quality := quality,
          segmentIndex := i + 1, sequential := false, sequencePosition := none,
          totalSequences := none, downloadUrl := none }
      let reg1 := regSet reg id job
      let r := parDispatchGo submit quality now rest (i + 1) reg1
      (.processing (i + 1) id estimatedTime thumbnail none :: r.1,
        estimatedTime + r.2.1, r.2.2)
    | .thrown msg =>
      let r := parDispatchGo submit quality now rest (i + 1) reg
      (erroredOutcome i msg estimatedTime :: r.1, r.2.1, r.2.2)

/-- The options object of `generateVideosWithVeo3` with its defaults
(`language` is read only by the unmodelled prompt conversion). -/
structure GenerateOptions where
  quality : Str := str "standard"
  sequential : Bool := false
deriving DecidableEq, Repr

/-- The batch result returned by `generateVideosWithVeo3` (lines 373–378). -/
structure BatchResult where
  videos : List VideoOutcome
  estimatedTime : ℤ
  totalSegments : Nat
  sequential : Bool
deriving DecidableEq, Repr

/-- Model of `generateVideosWithVeo3` (lines 199–379): dispatch all
segments in sequential or parallel mode and return the batch result. -/
def generateVideosWithVeo3 (segments : List InputSegment) (options : GenerateOptions)
    (submit : Nat → SubmitRes) (now : ℤ) : BatchResult :=
  if options.sequential then
    let r := seqDispatchGo submit options.quality now segments.length segments 0 []
    { videos := r.1, estimatedTime := r.2.1, totalSegments := segments.length,
      sequential := true }
  else
    let r := parDispatchGo submit options.quality now segments 0 []
    { videos := r.1, estimatedTime := r.2.1, totalSegments := segments.length,
      sequential := false }

/-- The event trace of a sequential dispatch. -/
def seqDispatchTrace (submit : Nat → SubmitRes) (quality : Str) (now : ℤ)
    (segments : List InputSegment) : List DispatchEv :=
  (seqDispatchGo submit quality now segments.length segments 0 []).2.2.2

/-! ### Registry lemmas -/

/-- Looking up the key just assigned returns the assigned job. -/
theorem regLookup_regSet_self (reg : Registry) (id : Str) (v : VideoJobStatus) :
    regLookup (regSet reg id v) id = some v := by
  induction reg with
  | nil => simp [regSet, regLookup]
  | cons kv rest ih =>
    obtain ⟨k, w⟩ := kv
    by_cases hk : k = id
    · simp [regSet, regLookup, hk]
    · simp [regSet, regLookup, hk, ih]

/-- A timer step never removes a registry entry: if the id is present, it is
still present (with the stepped job) afterwards. -/
theorem regLookup_applyProgressStep (reg : Registry) (id : Str) (step : ProgressStep)
    (j : VideoJobStatus) (h : regLookup reg id = some j) :
    regLookup (applyProgressStep reg id step) id = some (steppedJob id j step) := by
  unfold applyProgressStep
  rw [h]
  exact regLookup_regSet_self reg id (steppedJob id j step)

/-- A 100%-progress step always leaves the stepped job `completed`. -/
theorem steppedJob_status_completed (id : Str) (j : VideoJobStatus) (step : ProgressStep)
    (h : step.progress = 100) : (steppedJob id j step).status = str "completed" := by
  simp [steppedJob, h]

/-! ### C5 — stale progress timers versus terminal job states -/

/-- A job already in the terminal `error` state, used to exhibit that a
later-firing simulated timer overwrites terminal states. -/
def cexErrorJob : VideoJobStatus :=
  { id := str "op1", status := str "error", progress := 0, startTime := 0,
    estimatedCompletion := 120000, quality := str "standard", segmentIndex := 1,
    sequential := false, sequencePosition := none, totalSequences := none,
    downloadUrl := none }

/-- C5 (counterexample): the simulated-progress callback guards only on the
entry's existence, not on its state: a job whose status is the terminal
`error` is overwritten to `Generating scene elements...` when the 50% timer
fires, contradicting the claim that a terminal state is never mutated by a
later-firing timer. -/
theorem timer_overwrites_terminal_state_cex :
    (regLookup [(str "op1", cexErrorJob)] (str "op1")).map VideoJobStatus.status
      = some (str "error") ∧
    (regLookup (applyProgressStep [(str "op1", cexErrorJob)] (str "op1")
        ⟨50, str "Generating scene elements...", 15000⟩) (str "op1")).map VideoJobStatus.status
      = some (str "Generating scene elements...") := by
  exact ⟨rfl, rfl⟩

/-- C5 (amended): the progress-timer callback checks only that the job id is
still present in the registry before applying a scheduled update: when the
entry is absent the registry is left unchanged, and when it is present the
entry is replaced by the stepped record regardless of its current — possibly
terminal — status, so a terminal state can be overwritten by a stale timer. -/
theorem timer_guard_existence_only (reg : Registry) (id : Str) (step : ProgressStep) :
    (regLookup reg id = none → applyProgressStep reg id step = reg) ∧
    (∀ j, regLookup reg id = some j →
      regLookup (applyProgressStep reg id step) id = some (steppedJob id j step)) := by
  constructor
  · intro h
    unfold applyProgressStep
    rw [h]
  · intro j h
    exact regLookup_applyProgressStep reg id step j h

/-- C5 (witness): the amended guard behaviour at concrete inputs — an empty
registry is untouched, and a present `error` job is replaced by the stepped
record. -/
theorem timer_guard_existence_only_witness :
    applyProgressStep [] (str "op1") ⟨50, str "Generating scene elements...", 15000⟩ = [] ∧
    regLookup (applyProgressStep [(str "op1", cexErrorJob)] (str "op1")
        ⟨50, str "Generating scene elements...", 15000⟩) (str "op1")
      = some (steppedJob (str "op1") cexErrorJob
          ⟨50, str "Generating scene elements...", 15000⟩) := by
  exact ⟨(timer_guard_existence_only [] (str "op1") _).1 rfl,
    (timer_guard_existence_only [(str "op1", cexErrorJob)] (str "op1") _).2 cexErrorJob rfl⟩

/-! ### C9 — the generation-time estimate -/

/-- Rounding an integer-valued rational is the identity. -/
theorem jsMathRound_intCast (n : ℤ) : jsMathRound (n : ℚ) = n := by
  unfold jsMathRound
  rw [Int.floor_int_add]
  norm_num

/-- C9: the estimated generation time is `Math.round` of 120 s times the
quality multiplier (1.5 for `high`, else 1.0) times the complexity
multiplier (1.2 when the dialogue exceeds 100 characters, else 1.0), and its
only possible values are 120, 144, 180 and 216 seconds. -/
theorem estimate_formula_and_range (segment : InputSegment) (quality : Str) :
    estimateVideoGenerationTime segment quality =
      jsMathRound (120 * (if quality = str "high" then 3 / 2 else 1) *
        (if (segment.dialogue.getD []).length > 100 then 6 / 5 else 1)) ∧
    (estimateVideoGenerationTime segment quality = 120 ∨
     estimateVideoGenerationTime segment quality = 144 ∨
     estimateVideoGenerationTime segment quality = 180 ∨
     estimateVideoGenerationTime segment quality = 216) := by
  refine ⟨rfl, ?_⟩
  unfold estimateVideoGenerationTime
  by_cases hq : quality = str "high" <;>
    by_cases hd : (segment.dialogue.getD []).length > 100 <;>
      simp only [hq, hd, if_true, if_false, if_pos, if_neg, not_false_iff]
  · have h1 : (120 : ℚ) * (3 / 2) * (6 / 5) = ((216 : ℤ) : ℚ) := by norm_num
    rw [h1, jsMathRound_intCast]
    simp
  · have h1 : (120 : ℚ) * (3 / 2) * 1 = ((180 : ℤ) : ℚ) := by norm_num
    rw [h1, jsMathRound_intCast]
    simp
  · have h1 : (120 : ℚ) * 1 * (6 / 5) = ((144 : ℤ) : ℚ) := by norm_num
    rw [h1, jsMathRound_intCast]
    simp
  · have h1 : (120 : ℚ) * 1 * 1 = ((120 : ℤ) : ℚ) := by norm_num
    rw [h1, jsMathRound_intCast]
    simp

/-! ### C10 — the completion wait -/

/-- C10: `waitForVideoCompletion` resolves immediately (with zero re-polls)
when the awaited id has no registry entry; it resolves immediately with the
observed job when the entry's status is `completed`; and it re-polls on the
next snapshot exactly when an entry exists whose status is not `completed`. -/
theorem waitForVideoCompletion_spec (reg : Registry) (rest : List Registry) (id : Str) :
    (regLookup reg id = none →
      waitForVideoCompletionRun (reg :: rest) id = some (0, none)) ∧
    (∀ j, regLookup reg id = some j → j.status = str "completed" →
      waitForVideoCompletionRun (reg :: rest) id = some (0, some j)) ∧
    (∀ j, regLookup reg id = some j → j.status ≠ str "completed" →
      waitForVideoCompletionRun (reg :: rest) id =
        (waitForVideoCompletionRun rest id).map (fun p => (p.1 + 1, p.2))) := by
  refine ⟨fun h => ?_, fun j hj hc => ?_, fun j hj hc => ?_⟩
  · simp [waitForVideoCompletionRun, h]
  · simp [waitForVideoCompletionRun, hj, hc]
  · simp only [waitForVideoCompletionRun, hj]
    rw [if_neg hc]
    cases waitForVideoCompletionRun rest id with
    | none => rfl
    | some p => rfl

/-- A completed job for the C10 witness. -/
def wJobCompleted : VideoJobStatus :=
  { cexErrorJob with id := str "v1", status := str "completed", progress := 100 }

/-- A still-processing job for the C10 witness. -/
def wJobProcessing : VideoJobStatus :=
  { cexErrorJob with id := str "v1", status := str "processing" }

/-- C10 (witness): the three wait behaviours at concrete snapshots — missing
entry resolves at once, completed entry resolves at once with the job, and a
processing entry re-polls and resolves one snapshot later. -/
theorem waitForVideoCompletion_spec_witness :
    waitForVideoCompletionRun [[]] (str "v1") = some (0, none) ∧
    waitForVideoCompletionRun [[(str "v1", wJobCompleted)]] (str "v1")
      = some (0, some wJobCompleted) ∧
    waitForVideoCompletionRun [[(str "v1", wJobProcessing)], [(str "v1", wJobCompleted)]]
        (str "v1") = some (1, some wJobCompleted) := by
  refine ⟨(waitForVideoCompletion_spec [] [] (str "v1")).1 rfl,
    (waitForVideoCompletion_spec [(str "v1", wJobCompleted)] [] (str "v1")).2.1
      wJobCompleted rfl rfl, ?_⟩
  have h := (waitForVideoCompletion_spec [(str "v1", wJobProcessing)]
      [[(str "v1", wJobCompleted)]] (str "v1")).2.2 wJobProcessing rfl (by decide)
  exact h.trans (by rfl)

/-! ### C4 — batch completeness -/

/-- Each step of the sequential loop pushes exactly one outcome carrying
segment index `i + 1`, so the outcome indices are `i + 1, i + 2, …`. -/
theorem seqDispatchGo_map_segmentIndex (submit : Nat → SubmitRes) (quality : Str)
    (now : ℤ) (n : Nat) :
    ∀ (segs : List InputSegment) (i : Nat) (reg : Registry),
      (seqDispatchGo submit quality now n segs i reg).1.map VideoOutcome.segmentIndex
        = List.range' (i + 1) segs.length := by
  intro segs
  induction segs with
  | nil => intro i reg; rfl
  | cons seg rest ih =>
    intro i reg
    cases hsub : submit i with
    | ok id thumbnail =>
      simp only [seqDispatchGo, hsub, List.map_cons, List.length_cons, List.range',
        VideoOutcome.segmentIndex]
      exact congrArg (List.cons (i + 1)) (ih (i + 1) _)
    | thrown msg =>
      simp only [seqDispatchGo, hsub, List.map_cons, List.length_cons, List.range',
        erroredOutcome, VideoOutcome.segmentIndex]
      exact congrArg (List.cons (i + 1)) (ih (i + 1) _)

/-- Each step of the parallel loop pushes exactly one outcome carrying
segment index `i + 1`, so the outcome indices are `i + 1, i + 2, …`. -/
theorem parDispatchGo_map_segmentIndex (submit : Nat → SubmitRes) (quality : Str)
    (now : ℤ) :
    ∀ (segs : List InputSegment) (i : Nat) (reg : Registry),
      (parDispatchGo submit quality now segs i reg).1.map VideoOutcome.segmentIndex
        = List.range' (i + 1) segs.length := by
  intro segs
  induction segs with
  | nil => intro i reg; rfl
  | cons seg rest ih =>
    intro i reg
    cases hsub : submit i with
    | ok id thumbnail =>
      simp only [parDispatchGo, hsub, List.map_cons, List.length_cons, List.range',
        VideoOutcome.segmentIndex]
      exact congrArg (List.cons (i + 1)) (ih (i + 1) _)
    | thrown msg =>
      simp only [parDispatchGo, hsub, List.map_cons, List.length_cons, List.range',
        erroredOutcome, VideoOutcome.segmentIndex]
      exact congrArg (List.cons (i + 1)) (ih (i + 1) _)

/-- C4: in both dispatch modes the batch result contains exactly one outcome
per input segment, in input order: the list of `segmentIndex` fields is
`1, 2, …, segments.length`, regardless of which submissions fail. -/
theorem dispatch_batch_completeness (segments : List InputSegment)
    (options : GenerateOptions) (submit : Nat → SubmitRes) (now : ℤ) :
    (generateVideosWithVeo3 segments options submit now).videos.length = segments.length ∧
    (generateVideosWithVeo3 segments options submit now).videos.map VideoOutcome.segmentIndex
      = List.range' 1 segments.length := by
  unfold generateVideosWithVeo3
  by_cases hseq : options.sequential
  · simp only [hseq, if_true]
    refine ⟨?_, seqDispatchGo_map_segmentIndex submit options.quality now segments.length
      segments 0 []⟩
    have h := seqDispatchGo_map_segmentIndex submit options.quality now segments.length
      segments 0 []
    have := congrArg List.length h
    simpa using this
  · simp only [hseq, if_false, Bool.false_eq_true]
    refine ⟨?_, parDispatchGo_map_segmentIndex submit options.quality now segments 0 []⟩
    have h := parDispatchGo_map_segmentIndex submit options.quality now segments 0 []
    have := congrArg List.length h
    simpa using this

/-! ### C8 — classification of submission errors -/

/-- Indexing lemma for the sequential loop: a thrown submission for the
`k`-th remaining segment yields the catch block's error record in slot `k`. -/
theorem seqDispatchGo_get?_thrown (submit : Nat → SubmitRes) (quality : Str)
    (now : ℤ) (n : Nat) :
    ∀ (segs : List InputSegment) (i : Nat) (reg : Registry) (k : Nat)
      (hk : k < segs.length) (msg : Str), submit (i + k) = .thrown msg →
      (seqDispatchGo submit quality now n segs i reg).1.get? k
        = some (erroredOutcome (i + k) msg
            (estimateVideoGenerationTime (segs.get ⟨k, hk⟩) quality)) := by
  intro segs
  induction segs with
  | nil => intro i reg k hk; simp at hk
  | cons seg rest ih =>
    intro i reg k hk msg hsub
    cases k with
    | zero =>
      simp only [Nat.add_zero] at hsub ⊢
      simp only [seqDispatchGo, hsub, List.get?_cons_zero, List.get]
    | succ k' =>
      have hk' : k' < rest.length := Nat.lt_of_succ_lt_succ hk
      have hsub' : submit (i + 1 + k') = .thrown msg := by
        rw [show i + 1 + k' = i + (k' + 1) by omega]
        exact hsub
      cases hs : submit i with
      | ok id thumbnail =>
        simp only [seqDispatchGo, hs, List.get?_cons_succ, List.get]
        rw [show i + (k' + 1) = i + 1 + k' from by omega]
        exact ih (i + 1) _ k' hk' msg hsub'
      | thrown m =>
        simp only [seqDispatchGo, hs, List.get?_cons_succ, List.get]
        rw [show i + (k' + 1) = i + 1 + k' from by omega]
        exact ih (i + 1) _ k' hk' msg hsub'

/-- Indexing lemma for the parallel loop: a thrown submission for the
`k`-th remaining segment yields the catch block's error record in slot `k`. -/
theorem parDispatchGo_get?_thrown (submit : Nat → SubmitRes) (quality : Str) (now : ℤ) :
    ∀ (segs : List InputSegment) (i : Nat) (reg : Registry) (k : Nat)
      (hk : k < segs.length) (msg : Str), submit (i + k) = .thrown msg →
      (parDispatchGo submit quality now segs i reg).1.get? k
        = some (erroredOutcome (i + k) msg
            (estimateVideoGenerationTime (segs.get ⟨k, hk⟩) quality)) := by
  intro segs
  induction segs with
  | nil => intro i reg k hk; simp at hk
  | cons seg rest ih =>
    intro i reg k hk msg hsub
    cases k with
    | zero =>
      simp only [Nat.add_zero] at hsub ⊢
      simp only [parDispatchGo, hsub, List.get?_cons_zero, List.get]
    | succ k' =>
      have hk' : k' < rest.length := Nat.lt_of_succ_lt_succ hk
      have hsub' : submit (i + 1 + k') = .thrown msg := by
        rw [show i + 1 + k' = i + (k' + 1) by omega]
        exact hsub
      cases hs : submit i with
      | ok id thumbnail =>
        simp only [parDispatchGo, hs, List.get?_cons_succ, List.get]
        rw [show i + (k' + 1) = i + 1 + k' from by omega]
        exact ih (i + 1) _ k' hk' msg hsub'
      | thrown m =>
        simp only [parDispatchGo, hs, List.get?_cons_succ, List.get]
        rw [show i + (k' + 1) = i + 1 + k' from by omega]
        exact ih (i + 1) _ k' hk' msg hsub'

/-- C8: in either dispatch mode, when the submission of segment `i` throws
with message `msg`, the batch entry for that slot is the error record whose
status is `error`, whose `quotaExceeded` flag is set exactly when `msg`
contains `429` or `RESOURCE_EXHAUSTED` (in which case the human-readable
message is the fixed quota text, otherwise the raw message), and which
carries the originally requested estimated time. -/
theorem submission_error_classification (segments : List InputSegment)
    (options : GenerateOptions) (submit : Nat → SubmitRes) (now : ℤ)
    (i : Nat) (hi : i < segments.length) (msg : Str) (hsub : submit i = .thrown msg) :
    (generateVideosWithVeo3 segments options submit now).videos.get? i
      = some (.errored (i + 1)
          (if strIncludes msg (str "429") || strIncludes msg (str "RESOURCE_EXHAUSTED")
            then quotaMessage else msg)
          (estimateVideoGenerationTime (segments.get ⟨i, hi⟩) options.quality)
          (strIncludes msg (str "429") || strIncludes msg (str "RESOURCE_EXHAUSTED"))) := by
  have hsub0 : submit (0 + i) = .thrown msg := by simpa using hsub
  unfold generateVideosWithVeo3
  by_cases hseq : options.sequential
  · simp only [hseq, if_true]
    have h := seqDispatchGo_get?_thrown submit options.quality now segments.length
      segments 0 [] i hi msg hsub0
    simpa [erroredOutcome, isQuotaErrorMsg] using h
  · simp only [hseq, if_false, Bool.false_eq_true]
    have h := parDispatchGo_get?_thrown submit options.quality now segments 0 [] i hi msg hsub0
    simpa [erroredOutcome, isQuotaErrorMsg] using h

/-- A submission stub that always throws an error mentioning `429`, for the
C8 witness. -/
def wSubmit429 : Nat → SubmitRes := fun _ => .thrown (str "Google AI Studio API error: 429")

/-- C8 (witness): with a stub client that throws a message containing `429`,
the single batch entry is an `error` record with `quotaExceeded = true` and
the fixed quota message. -/
theorem submission_error_classification_witness :
    (generateVideosWithVeo3 [⟨none⟩] {} wSubmit429 0).videos.get? 0
      = some (.errored 1 quotaMessage
          (estimateVideoGenerationTime ⟨none⟩ (str "standard")) true) := by
  have h := submission_error_classification [⟨none⟩] {} wSubmit429 0 0 (by decide)
    (str "Google AI Studio API error: 429") rfl
  refine h.trans ?_
  norm_num [strIncludes, str, List.isPrefixOf, quotaMessage]


/-! ### C3 — sequential ordering -/

/-- The initial registry of an evolution is among its snapshots. -/
theorem mem_registryEvolution_self (reg : Registry) (id : Str) (steps : List ProgressStep) :
    reg ∈ registryEvolution reg id steps := by
  cases steps <;> simp [registryEvolution]

/-- A job present at the start of a timer evolution is present in every
snapshot (timers never remove registry entries). -/
theorem registryEvolution_present (id : Str) :
    ∀ (steps : List ProgressStep) (reg : Registry) (j : VideoJobStatus),
      regLookup reg id = some j →
      ∀ r ∈ registryEvolution reg id steps, ∃ j', regLookup r id = some j' := by
  intro steps
  induction steps with
  | nil =>
    intro reg j h r hr
    simp only [registryEvolution, List.mem_singleton] at hr
    exact hr ▸ ⟨j, h⟩
  | cons s rest ih =>
    intro reg j h r hr
    rcases List.mem_cons.mp hr with rfl | hr'
    · exact ⟨j, h⟩
    · exact ih _ (steppedJob id j s) (regLookup_applyProgressStep reg id s j h) r hr'

/-- If some step of the table sets progress 100, then some snapshot of the
evolution holds the job with status `completed`. -/
theorem registryEvolution_completed (id : Str) :
    ∀ (steps : List ProgressStep) (reg : Registry) (j : VideoJobStatus),
      regLookup reg id = some j → (∃ s ∈ steps, s.progress = 100) →
      ∃ r ∈ registryEvolution reg id steps, ∃ j',
        regLookup r id = some j' ∧ j'.status = str "completed" := by
  intro steps
  induction steps with
  | nil =>
    intro reg j h hex
    rcases hex with ⟨s', hs', _⟩
    exact absurd hs' (List.not_mem_nil s')
  | cons s rest ih =>
    intro reg j h hex
    by_cases hp : s.progress = 100
    · refine ⟨applyProgressStep reg id s,
        List.mem_cons_of_mem _ (mem_registryEvolution_self _ _ _),
        steppedJob id j s, regLookup_applyProgressStep reg id s j h,
        steppedJob_status_completed id j s hp⟩
    · have hex' : ∃ s' ∈ rest, s'.progress = 100 := by
        rcases hex with ⟨s', hs', h100⟩
        rcases List.mem_cons.mp hs' with rfl | hmem
        · exact absurd h100 hp
        · exact ⟨s', hmem, h100⟩
      obtain ⟨r, hr, j', hj', hc⟩ :=
        ih (applyProgressStep reg id s) (steppedJob id j s)
          (regLookup_applyProgressStep reg id s j h) hex'
      exact ⟨r, List.mem_cons_of_mem _ hr, j', hj', hc⟩

/-- If the awaited job is present in every snapshot and completed in some
snapshot, the wait resolves with an observed `completed` job. -/
theorem waitRun_resolves (id : Str) :
    ∀ snaps : List Registry,
      (∀ r ∈ snaps, ∃ j, regLookup r id = some j) →
      (∃ r ∈ snaps, ∃ j, regLookup r id = some j ∧ j.status = str "completed") →
      ∃ k j, waitForVideoCompletionRun snaps id = some (k, some j) ∧
        j.status = str "completed" := by
  intro snaps
  induction snaps with
  | nil =>
    intro _ hex
    rcases hex with ⟨r, hr, _⟩
    exact absurd hr (List.not_mem_nil r)
  | cons r0 rest ih =>
    intro hpres hex
    obtain ⟨j0, hj0⟩ := hpres r0 (List.mem_cons_self _ _)
    by_cases hc : j0.status = str "completed"
    · exact ⟨0, j0, by simp [waitForVideoCompletionRun, hj0, hc], hc⟩
    · have hex' : ∃ r ∈ rest, ∃ j, regLookup r id = some j ∧ j.status = str "completed" := by
        rcases hex with ⟨r, hr, j, hj, hjc⟩
        rcases List.mem_cons.mp hr with rfl | hr'
        · rw [hj0] at hj
          injection hj with hjj
          exact absurd (hjj ▸ hjc) hc
        · exact ⟨r, hr', j, hj, hjc⟩
      obtain ⟨k, j, hw, hjc⟩ := ih (fun r hr => hpres r (List.mem_cons_of_mem _ hr)) hex'
      refine ⟨k + 1, j, ?_, hjc⟩
      simp [waitForVideoCompletionRun, hj0, hc, hw]

/-- The sequential progress table always contains its final 100% step. -/
theorem seqProgressSteps_has_final (p t : Nat) :
    ∃ s ∈ seqProgressSteps p t, s.progress = 100 := by
  exact ⟨⟨100, str "completed", 12000⟩, by simp [seqProgressSteps], rfl⟩

/-- The cooperative wait of a sequential submission always observes the
awaited job reach `completed`: the entry is created just before the wait,
timers never remove it, and the final simulated step marks it completed. -/
theorem seqWaitEvents_observes (i : Nat) (reg : Registry) (id : Str)
    (job : VideoJobStatus) (p t : Nat) :
    seqWaitEvents i
      (registryEvolution (regSet reg id job) id (seqProgressSteps p t)) id
      = [DispatchEv.observedCompleted i] := by
  obtain ⟨k, j, hw, hjc⟩ := waitRun_resolves id
    (registryEvolution (regSet reg id job) id (seqProgressSteps p t))
    (registryEvolution_present id _ _ job (regLookup_regSet_self reg id job))
    (registryEvolution_completed id _ _ job (regLookup_regSet_self reg id job)
      (seqProgressSteps_has_final p t))
  unfold seqWaitEvents
  rw [hw]
  simp [hjc]

/-- The sequential trace of a nonempty segment list starts with the
submission of its first segment. -/
theorem seqDispatchGo_trace_head (submit : Nat → SubmitRes) (quality : Str)
    (now : ℤ) (n : Nat) (seg : InputSegment) (rest : List InputSegment)
    (i : Nat) (reg : Registry) :
    (seqDispatchGo submit quality now n (seg :: rest) i reg).2.2.2
      = DispatchEv.submitted i ::
        ((seqDispatchGo submit quality now n (seg :: rest) i reg).2.2.2).tail := by
  cases hs : submit i with
  | ok id thumbnail => simp [seqDispatchGo, hs]
  | thrown msg => simp [seqDispatchGo, hs]

/-- Trace equation for a successful non-final sequential submission: submit,
then observe completion, then the trace of the remaining segments. -/
theorem seqDispatchGo_trace_ok (submit : Nat → SubmitRes) (quality : Str)
    (now : ℤ) (n : Nat) (seg seg1 : InputSegment) (rest1 : List InputSegment)
    (i : Nat) (reg : Registry) (id : Str) (th : Option Str)
    (hs : submit i = .ok id th) :
    (seqDispatchGo submit quality now n (seg :: seg1 :: rest1) i reg).2.2.2
      = DispatchEv.submitted i :: DispatchEv.observedCompleted i ::
        (seqDispatchGo submit quality now n (seg1 :: rest1) (i + 1)
          (seqRegAfter reg id
            (seqInitJob id now (estimateVideoGenerationTime seg quality) quality i n)
            (i + 1) n)).2.2.2 := by
  simp [seqDispatchGo, hs, seqWaitEvents_observes]

/-- Trace equation for a failed sequential submission: submit, then record
the error, then the trace of the remaining segments. -/
theorem seqDispatchGo_trace_thrown (submit : Nat → SubmitRes) (quality : Str)
    (now : ℤ) (n : Nat) (seg : InputSegment) (rest : List InputSegment)
    (i : Nat) (reg : Registry) (msg : Str) (hs : submit i = .thrown msg) :
    (seqDispatchGo submit quality now n (seg :: rest) i reg).2.2.2
      = DispatchEv.submitted i :: DispatchEv.recordedError i ::
        (seqDispatchGo submit quality now n rest (i + 1) reg).2.2.2 := by
  simp [seqDispatchGo, hs]

/-- Ordering lemma for the sequential loop: for any segment (at offset `d`)
that is not the last, the trace contains — in order — the completion
observation (on success) or the error record (on failure) for that segment,
followed by the submission of the next segment. -/
theorem seqDispatchGo_ordering (submit : Nat → SubmitRes) (quality : Str)
    (now : ℤ) (n : Nat) :
    ∀ (segs : List InputSegment) (i : Nat) (reg : Registry) (d : Nat),
      d + 1 < segs.length →
      (∀ id th, submit (i + d) = .ok id th →
        List.Sublist [DispatchEv.observedCompleted (i + d), DispatchEv.submitted (i + d + 1)]
          (seqDispatchGo submit quality now n segs i reg).2.2.2) ∧
      (∀ msg, submit (i + d) = .thrown msg →
        List.Sublist [DispatchEv.recordedError (i + d), DispatchEv.submitted (i + d + 1)]
          (seqDispatchGo submit quality now n segs i reg).2.2.2) := by
  intro segs
  induction segs with
  | nil => intro i reg d hd; simp at hd
  | cons seg rest ih =>
    intro i reg d hd
    obtain ⟨seg1, rest1, rfl⟩ : ∃ seg1 rest1, rest = seg1 :: rest1 := by
      cases rest with
      | nil => simp at hd
      | cons a l => exact ⟨a, l, rfl⟩
    cases d with
    | zero =>
      constructor
      · intro id th hsub
        simp only [Nat.add_zero] at hsub ⊢
        rw [seqDispatchGo_trace_ok submit quality now n seg seg1 rest1 i reg id th hsub,
          seqDispatchGo_trace_head]
        exact List.Sublist.cons _ (List.Sublist.cons₂ _ (List.Sublist.cons₂ _
          (List.nil_sublist _)))
      · intro msg hsub
        simp only [Nat.add_zero] at hsub ⊢
        rw [seqDispatchGo_trace_thrown submit quality now n seg (seg1 :: rest1) i reg msg hsub,
          seqDispatchGo_trace_head]
        exact List.Sublist.cons _ (List.Sublist.cons₂ _ (List.Sublist.cons₂ _
          (List.nil_sublist _)))
    | succ d' =>
      have hd' : d' + 1 < (seg1 :: rest1).length := by
        simp only [List.length_cons] at hd ⊢
        omega
      have harith : i + (d' + 1) = (i + 1) + d' := by omega
      constructor
      · intro id th hsub
        rw [harith] at hsub ⊢
        cases hs : submit i with
        | ok id0 thumbnail0 =>
          have h := (ih (i + 1)
            (seqRegAfter reg id0
              (seqInitJob id0 now (estimateVideoGenerationTime seg quality) quality i n)
              (i + 1) n) d' hd').1 id th hsub
          rw [seqDispatchGo_trace_ok submit quality now n seg seg1 rest1 i reg id0
            thumbnail0 hs]
          exact (h.cons _).cons _
        | thrown msg0 =>
          have h := (ih (i + 1) reg d' hd').1 id th hsub
          rw [seqDispatchGo_trace_thrown submit quality now n seg (seg1 :: rest1) i reg
            msg0 hs]
          exact (h.cons _).cons _
      · intro msg hsub
        rw [harith] at hsub ⊢
        cases hs : submit i with
        | ok id0 thumbnail0 =>
          have h := (ih (i + 1)
            (seqRegAfter reg id0
              (seqInitJob id0 now (estimateVideoGenerationTime seg quality) quality i n)
              (i + 1) n) d' hd').2 msg hsub
          rw [seqDispatchGo_trace_ok submit quality now n seg seg1 rest1 i reg id0
            thumbnail0 hs]
          exact (h.cons _).cons _
        | thrown msg0 =>
          have h := (ih (i + 1) reg d' hd').2 msg hsub
          rw [seqDispatchGo_trace_thrown submit quality now n seg (seg1 :: rest1) i reg
            msg0 hs]
          exact (h.cons _).cons _

/-- C3: in sequential mode, for every segment `i` that is not the last, the
orchestrator submits segment `i + 1` only after — in trace order — it has
observed segment `i`'s job reach `completed` (when submission `i`
succeeded), and when submission `i` failed it records the error outcome for
that slot and still proceeds to submit segment `i + 1`, so one failure never
aborts the rest of the chain. -/
theorem sequential_dispatch_ordering (submit : Nat → SubmitRes) (quality : Str)
    (now : ℤ) (segments : List InputSegment) (i : Nat) (hi : i + 1 < segments.length) :
    (∀ id th, submit i = .ok id th →
      List.Sublist [DispatchEv.observedCompleted i, DispatchEv.submitted (i + 1)]
        (seqDispatchTrace submit quality now segments)) ∧
    (∀ msg, submit i = .thrown msg →
      List.Sublist [DispatchEv.recordedError i, DispatchEv.submitted (i + 1)]
        (seqDispatchTrace submit quality now segments)) := by
  have h := seqDispatchGo_ordering submit quality now segments.length segments 0 [] i hi
  simpa [seqDispatchTrace] using h

/-- A submission stub that always succeeds, for the C3 witness. -/
def wSubmitOk : Nat → SubmitRes := fun _ => .ok (str "op") none

/-- C3 (witness): with two segments and an always-succeeding stub client,
the trace observes segment 0 complete before segment 1 is submitted. -/
theorem sequential_dispatch_ordering_witness :
    List.Sublist [DispatchEv.observedCompleted 0, DispatchEv.submitted 1]
      (seqDispatchTrace wSubmitOk (str "standard") 0 [⟨none⟩, ⟨none⟩]) := by
  exact (sequential_dispatch_ordering wSubmitOk (str "standard") 0 [⟨none⟩, ⟨none⟩] 0
    (by decide)).1 (str "op") none rfl

/-! ### C6 — the Segmenter never fails -/

/-- C6 (counterexample): on the empty script — and on a whitespace-only
script — `splitScript` does not fail with an `EmptyScriptError`: it returns
a one-element segment sequence containing the empty segment. -/
theorem splitScript_empty_returns_segment :
    splitScript (str "") = [str ""] ∧ splitScript (str "   ") = [str ""] := by
  exact ⟨rfl, rfl⟩

/-- C6 (amended): the Segmenter never fails: on every input, including the
empty and whitespace-only scripts, `splitScript` returns a sequence of at
least one segment (empty-script rejection happens only in the HTTP layer,
which requires 50 characters, not in the Segmenter). -/
theorem splitScript_never_fails (script : Str) : 0 < (splitScript script).length := by
  have hs : sentencesOf script ≠ [] := by
    unfold sentencesOf
    by_cases h : (matchSentences script).isEmpty
    · simp [h]
    · simp only [h, if_false, Bool.false_eq_true]
      intro hc
      rw [hc] at h
      simp at h
  have hgo : ∀ (l : List Str) (cur : Str) (cnt : Nat), buildRawGo cur cnt l ≠ [] := by
    intro l
    induction l with
    | nil => intro cur cnt; simp [buildRawGo]
    | cons sn rest ih =>
      intro cur cnt
      unfold buildRawGo
      by_cases h15 : cnt < 15
      · simp only [h15, if_true]
        by_cases h22 : cnt + jsWordCount (jsTrim sn) > 22
        · simp only [h22, if_true, h15]
          exact ih _ _
        · simp only [h22, if_false, Bool.false_eq_true]
          exact ih _ _
      · simp [h15]
  have hbr : buildRaw (sentencesOf script) ≠ [] := by
    cases hsc : sentencesOf script with
    | nil => exact absurd hsc hs
    | cons sn rest => exact hgo rest (jsTrim sn) (jsWordCount (jsTrim sn))
  have hrep : ∀ (fuel : Nat) (l : List Str), l ≠ [] → repairGo fuel l ≠ [] := by
    intro fuel
    induction fuel with
    | zero => intro l hl; simpa [repairGo] using hl
    | succ f ih =>
      intro l hl
      match l with
      | [] => exact absurd rfl hl
      | [seg] => simp [repairGo]
      | seg :: nxt :: rest =>
        unfold repairGo
        by_cases h15 : jsWordCount seg < 15
        · simp only [h15, if_true]
          cases h : (if 15 < jsWordCount nxt then
              match sentencesOf nxt with
              | b :: b2 :: bs =>
                if jsWordCount seg + jsWordCount b ≤ 22 then
                  some (seg ++ ' ' :: b, joinSp (b2 :: bs))
                else none
              | _ => none
            else none : Option (Str × Str)) with
          | none =>
            simp only [h]
            by_cases h30 : jsWordCount (seg ++ ' ' :: nxt) ≤ 30 <;> simp [h30]
          | some p =>
            obtain ⟨newSeg, newDonor⟩ := p
            simp [h]
        · simp [h15]
  unfold splitScript repairPass
  have := hrep (buildRaw (sentencesOf script)).length (buildRaw (sentencesOf script)) hbr
  exact List.length_pos.mpr this

/-! ### C1 — the 30-word ceiling -/

/-- A script consisting of one 31-word sentence. -/
def cexLongSentence : Str :=
  str "w w w w w w w w w w w w w w w w w w w w w w w w w w w w w w w."

/-- C1 (counterexample): the returned segments are not bounded by 30 words
on every input: a script made of a single 31-word sentence is returned as
one 31-word segment, because the greedy loop's ceiling test can only fire
while the floor is unmet and the repair pass never splits a segment. -/
theorem splitScript_segment_exceeds_30 :
    (splitScript cexLongSentence).map jsWordCount = [31] ∧
    ¬ (∀ seg ∈ splitScript cexLongSentence, jsWordCount seg ≤ 30) := by
  refine ⟨rfl, ?_⟩
  decide

/-! ### C7 — order of the repair strategies -/

/-- A 3-word raw segment, the short recipient of the C7 counterexample. -/
def cexShortSeg : Str := str "A b c."

/-- A 16-word two-sentence donor raw segment for the C7 counterexample. -/
def cexDonorSeg : Str := str "D e. F g h i j k l m n o p q r s."

/-- C7 (counterexample): after a successful borrow the repair pass applies
no further repair, even when the repaired segment is still below the
15-word floor and merging the full donor (19 ≤ 30 words) was admissible:
the 3-word segment borrows the donor's 2-word first sentence and is kept at
5 words, contradicting the claim that a borrow leaving the segment below
the floor is followed by a merge of the entire following raw segment. -/
theorem repairPass_borrow_without_merge :
    repairPass [cexShortSeg, cexDonorSeg]
      = [str "A b c. D e.", str " F g h i j k l m n o p q r s."] ∧
    jsWordCount cexShortSeg = 3 ∧
    jsWordCount (str "A b c. D e.") = 5 ∧
    jsWordCount (cexShortSeg ++ ' ' :: cexDonorSeg) = 19 := by
  refine ⟨rfl, rfl, rfl, rfl⟩

/-! ### String arithmetic for the segmenter proofs -/

/-- Whether the last character of the string is whitespace (`p` for the
empty string): the scan state of `wsRunsAux` after consuming the string. -/
def endsWS (p : Bool) : Str → Bool
  | [] => p
  | c :: rest => endsWS (isWS c) rest

/-- Splitting a whitespace-run scan at an append boundary. -/
theorem wsRunsAux_append (ys : Str) :
    ∀ (xs : Str) (p : Bool),
      wsRunsAux p (xs ++ ys) = wsRunsAux p xs + wsRunsAux (endsWS p xs) ys := by
  intro xs
  induction xs with
  | nil => intro p; simp [wsRunsAux, endsWS]
  | cons c rest ih =>
    intro p
    show (if isWS c && !p then 1 else 0) + wsRunsAux (isWS c) (rest ++ ys)
        = ((if isWS c && !p then 1 else 0) + wsRunsAux (isWS c) rest)
          + wsRunsAux (endsWS (isWS c) rest) ys
    rw [ih (isWS c)]
    omega

/-- The scan state after an append boundary. -/
theorem endsWS_append (ys : Str) :
    ∀ (xs : Str) (p : Bool), endsWS p (xs ++ ys) = endsWS (endsWS p xs) ys := by
  intro xs
  induction xs with
  | nil => intro p; rfl
  | cons c rest ih =>
    intro p
    show endsWS (isWS c) (rest ++ ys) = endsWS (endsWS (isWS c) rest) ys
    exact ih (isWS c)

/-- Whether the first character of the string is whitespace (`false` for the
empty string). -/
def headWS : Str → Bool
  | [] => false
  | c :: _ => isWS c

/-- A string is good when it is nonempty and has non-whitespace characters
at both ends — the shape of every trimmed sentence and of every segment the
greedy loop accumulates. -/
def goodStr (t : Str) : Prop :=
  t ≠ [] ∧ headWS t = false ∧ endsWS false t = false

/-- The scan of a string with a non-whitespace first character does not
depend on the previous state. -/
theorem wsRunsAux_true_of_headWS (b : Str) (hb : headWS b = false) :
    wsRunsAux true b = wsRunsAux false b := by
  cases b with
  | nil => rfl
  | cons c rest =>
    simp only [headWS] at hb
    simp [wsRunsAux, hb]

/-- Word counts add across a single-space join of good strings, and the join
is again good: the core arithmetic fact behind the greedy loop's running
count. -/
theorem jsWordCount_append_sep (a b : Str) (ha : goodStr a) (hb : goodStr b) :
    jsWordCount (a ++ ' ' :: b) = jsWordCount a + jsWordCount b ∧
      goodStr (a ++ ' ' :: b) := by
  obtain ⟨hane, hah, hae⟩ := ha
  obtain ⟨hbne, hbh, hbe⟩ := hb
  have hsp : isWS ' ' = true := rfl
  have hcount : wsRunsAux false (a ++ ' ' :: b)
      = wsRunsAux false a + (1 + wsRunsAux false b) := by
    rw [show (' ' :: b) = [' '] ++ b from rfl, ← List.append_assoc,
      wsRunsAux_append b (a ++ [' ']) false, wsRunsAux_append [' '] a false, hae]
    have h1 : wsRunsAux false [' '] = 1 := by simp [wsRunsAux, hsp]
    have h2 : endsWS false (a ++ [' ']) = true := by
      rw [endsWS_append [' '] a false, hae]
      simp [endsWS, hsp]
    rw [h1, h2, wsRunsAux_true_of_headWS b hbh]
    omega
  constructor
  · have hia : a.isEmpty = false := by
      cases a with
      | nil => exact absurd rfl hane
      | cons c rest => rfl
    have hib : b.isEmpty = false := by
      cases b with
      | nil => exact absurd rfl hbne
      | cons c rest => rfl
    have hiab : (a ++ ' ' :: b).isEmpty = false := by
      cases a with
      | nil => exact absurd rfl hane
      | cons c rest => rfl
    unfold jsWordCount
    rw [hia, hib, hiab]
    simp only [Bool.false_eq_true, if_false]
    omega
  · refine ⟨by simp, ?_, ?_⟩
    · cases a with
      | nil => exact absurd rfl hane
      | cons c rest => simpa [headWS] using hah
    · rw [show (' ' :: b) = [' '] ++ b from rfl, ← List.append_assoc,
        endsWS_append b (a ++ [' ']) false]
      have h2 : endsWS false (a ++ [' ']) = true := by
        rw [endsWS_append [' '] a false, hae]
        simp [endsWS, hsp]
      rw [h2]
      cases b with
      | nil => exact absurd rfl hbne
      | cons c rest => simpa [endsWS] using hbe

/-- The head of a `dropWhile` result fails the predicate. -/
theorem dropWhile_head_not (p : Char → Bool) :
    ∀ (l : Str) (c : Char) (r : Str), l.dropWhile p = c :: r → p c = false := by
  intro l
  induction l with
  | nil => intro c r h; simp [List.dropWhile] at h
  | cons a rest ih =>
    intro c r h
    by_cases ha : p a = true
    · rw [List.dropWhile_cons_of_pos ha] at h
      exact ih c r h
    · rw [List.dropWhile_cons_of_neg ha] at h
      cases h
      exact Bool.eq_false_iff.mpr ha

/-- A member failing the predicate survives `dropWhile`. -/
theorem mem_dropWhile_of_not (p : Char → Bool) :
    ∀ (l : Str) (c : Char), c ∈ l → p c = false → c ∈ l.dropWhile p := by
  intro l
  induction l with
  | nil => intro c hc; simp at hc
  | cons a rest ih =>
    intro c hc hp
    by_cases ha : p a = true
    · rw [List.dropWhile_cons_of_pos ha]
      rcases List.mem_cons.mp hc with rfl | hmem
      · rw [hp] at ha
        exact absurd ha (by simp)
      · exact ih c hmem hp
    · rw [List.dropWhile_cons_of_neg ha]
      exact hc

/-- A trimmed string containing a non-whitespace character is nonempty. -/
theorem jsTrim_ne_nil_of_mem (s : Str) (c : Char) (hc : c ∈ s) (hw : isWS c = false) :
    jsTrim s ≠ [] := by
  unfold jsTrim
  intro hnil
  have h1 : c ∈ s.dropWhile isWS := mem_dropWhile_of_not isWS s c hc hw
  have h2 : c ∈ (s.dropWhile isWS).reverse := List.mem_reverse.mpr h1
  have h3 : c ∈ (s.dropWhile isWS).reverse.dropWhile isWS :=
    mem_dropWhile_of_not isWS _ c h2 hw
  rw [List.reverse_eq_nil_iff.mp hnil] at h3
  simp at h3

/-- A nonempty trimmed string is good: trimming strips the whitespace of
both ends. -/
theorem jsTrim_goodStr (s : Str) (h : jsTrim s ≠ []) : goodStr (jsTrim s) := by
  refine ⟨h, ?_, ?_⟩
  · -- the head of `jsTrim s` is the head of `s.dropWhile isWS`
    have hpre : (((s.dropWhile isWS).reverse.dropWhile isWS).reverse : Str)
        <+: (s.dropWhile isWS).reverse.reverse := by
      rw [ List.reverse_prefix]
      exact List.dropWhile_suffix isWS
    rw [List.reverse_reverse] at hpre
    obtain ⟨t, ht⟩ := hpre
    cases hy : (((s.dropWhile isWS).reverse.dropWhile isWS).reverse : Str) with
    | nil => exact absurd hy h
    | cons d u =>
      rw [hy] at ht
      have hx : s.dropWhile isWS = d :: (u ++ t) := by
        rw [← ht]
        rfl
      have hd : isWS d = false := dropWhile_head_not isWS s d (u ++ t) hx
      unfold jsTrim
      rw [hy]
      simpa [headWS] using hd
  · cases hy : (s.dropWhile isWS).reverse.dropWhile isWS with
    | nil =>
      exact absurd (by unfold jsTrim; rw [hy]; rfl) h
    | cons d u =>
      have hd : isWS d = false := dropWhile_head_not isWS _ d u hy
      unfold jsTrim
      rw [hy, List.reverse_cons, endsWS_append [d] u.reverse false]
      simpa [endsWS] using hd

/-- Every terminator character is non-whitespace. -/
theorem isTerm_not_isWS (c : Char) (h : isTerm c = true) : isWS c = false := by
  unfold isTerm at h
  rcases Bool.or_eq_true_iff.mp h with h1 | h2
  · rcases Bool.or_eq_true_iff.mp h1 with ha | hb
    · rw [decide_eq_true_eq.mp ha]; rfl
    · rw [decide_eq_true_eq.mp hb]; rfl
  · rw [decide_eq_true_eq.mp h2]; rfl

/-- Every sentence emitted by the matcher contains a terminator character
(the regex requires the trailing `[.!?]+` run). -/
theorem msGo_mem_any_term :
    ∀ (s body term : Str), (∀ c ∈ term, isTerm c = true) →
      ∀ sn ∈ msGo body term s, sn.any isTerm = true := by
  intro s
  induction s with
  | nil =>
    intro body term hterm sn hsn
    unfold msGo at hsn
    by_cases hb : body.isEmpty = true
    · rw [if_pos hb] at hsn
      simp at hsn
    · rw [if_neg hb] at hsn
      by_cases ht : term.isEmpty = true
      · rw [if_pos ht] at hsn
        simp at hsn
      · rw [if_neg ht] at hsn
        rw [List.mem_singleton] at hsn
        subst hsn
        cases htm : term with
        | nil => rw [htm] at ht; simp at ht
        | cons tc tr =>
          have hmm : tc ∈ body.reverse ++ (tc :: tr).reverse := by simp
          exact List.any_eq_true.mpr
            ⟨tc, hmm, hterm tc (by rw [htm]; exact List.mem_cons_self _ _)⟩
  | cons c rest ih =>
    intro body term hterm sn hsn
    unfold msGo at hsn
    by_cases hc : isTerm c = true
    · rw [if_pos hc] at hsn
      by_cases hb : body.isEmpty = true
      · rw [if_pos hb] at hsn
        exact ih [] [] (by simp) sn hsn
      · rw [if_neg hb] at hsn
        refine ih body (c :: term) ?_ sn hsn
        intro x hx
        rcases List.mem_cons.mp hx with rfl | hmem
        · exact hc
        · exact hterm x hmem
    · rw [if_neg hc] at hsn
      by_cases ht : term.isEmpty = true
      · rw [if_pos ht] at hsn
        exact ih (c :: body) [] (by simp) sn hsn
      · rw [if_neg ht] at hsn
        rcases List.mem_cons.mp hsn with rfl | hmem
        · cases htm : term with
          | nil => rw [htm] at ht; simp at ht
          | cons tc tr =>
            have hmm : tc ∈ body.reverse ++ (tc :: tr).reverse := by simp
            exact List.any_eq_true.mpr
              ⟨tc, hmm, hterm tc (by rw [htm]; exact List.mem_cons_self _ _)⟩
        · exact ih [c] [] (by simp) sn hmem

/-- The trimmed form of any matched sentence is good. -/
theorem sentence_trim_good (sn : Str) (h : sn.any isTerm = true) : goodStr (jsTrim sn) := by
  obtain ⟨c, hc, hct⟩ := List.any_eq_true.mp h
  exact jsTrim_goodStr sn
    (jsTrim_ne_nil_of_mem sn c hc (isTerm_not_isWS c hct))

/-- The sentence list of `splitScript` is never empty (the fallback is the
one-element list holding the whole script). -/
theorem sentencesOf_ne_nil (s : Str) : sentencesOf s ≠ [] := by
  unfold sentencesOf
  by_cases h : (matchSentences s).isEmpty = true
  · simp [h]
  · simp only [h, if_false, Bool.false_eq_true]
    intro hc
    rw [hc] at h
    exact h rfl

/-- When the regex matches, every sentence of `sentencesOf` trims to a good
string. -/
theorem sentencesOf_good (s : Str) (h : ¬ (matchSentences s).isEmpty = true) :
    ∀ sn ∈ sentencesOf s, goodStr (jsTrim sn) := by
  intro sn hsn
  unfold sentencesOf at hsn
  rw [if_neg h] at hsn
  exact sentence_trim_good sn (msGo_mem_any_term s [] [] (by simp) sn hsn)

/-- Joining a cons of a nonempty list peels one separator. -/
theorem joinSp_cons_of_ne_nil (x : Str) (xs : List Str) (h : xs ≠ []) :
    joinSp (x :: xs) = x ++ ' ' :: joinSp xs := by
  cases xs with
  | nil => exact absurd rfl h
  | cons y ys => rfl

/-- A space-joined pair at the head of a join flattens. -/
theorem joinSp_append_cons (a b : Str) (xs : List Str) :
    joinSp ((a ++ ' ' :: b) :: xs) = joinSp (a :: b :: xs) := by
  cases xs with
  | nil => rfl
  | cons y ys =>
    show (a ++ ' ' :: b) ++ ' ' :: joinSp (y :: ys)
      = a ++ ' ' :: (b ++ ' ' :: joinSp (y :: ys))
    simp

/-- The largest trimmed word count among a list of sentences. -/
def maxT (l : List Str) : Nat :=
  l.foldr (fun sn m => max (jsWordCount (jsTrim sn)) m) 0

/-- `maxT` on a cons. -/
theorem maxT_cons (sn : Str) (rest : List Str) :
    maxT (sn :: rest) = max (jsWordCount (jsTrim sn)) (maxT rest) := rfl

/-- An upper bound on all trimmed sentence counts bounds `maxT`. -/
theorem maxT_le (bound : Nat) :
    ∀ l : List Str, (∀ sn ∈ l, jsWordCount (jsTrim sn) ≤ bound) → maxT l ≤ bound := by
  intro l
  induction l with
  | nil => intro _; exact Nat.zero_le bound
  | cons sn rest ih =>
    intro h
    rw [maxT_cons]
    exact max_le (h sn (List.mem_cons_self _ _))
      (ih fun x hx => h x (List.mem_cons_of_mem _ hx))

/-- The greedy-loop invariant: starting from a good accumulated segment
whose word count is the running count, over good sentences, the loop (i)
returns a nonempty segment list, (ii) preserves the space-joined text,
(iii) leaves every non-final segment at or above the 15-word floor, and
(iv) bounds every segment by the running count or by 14 plus the largest
sentence count (one last sentence can be appended while the count is below
the floor, i.e. at most 14). -/
theorem buildRawGo_spec :
    ∀ (l : List Str) (cur : Str) (cnt : Nat),
      goodStr cur → jsWordCount cur = cnt →
      (∀ sn ∈ l, goodStr (jsTrim sn)) →
      buildRawGo cur cnt l ≠ [] ∧
      joinSp (buildRawGo cur cnt l) = joinSp (cur :: l.map jsTrim) ∧
      (∀ seg ∈ (buildRawGo cur cnt l).dropLast, 15 ≤ jsWordCount seg) ∧
      (∀ seg ∈ buildRawGo cur cnt l, jsWordCount seg ≤ max cnt (14 + maxT l)) := by
  intro l
  induction l with
  | nil =>
    intro cur cnt hg hcnt hl
    refine ⟨by simp [buildRawGo], rfl, by simp [buildRawGo], ?_⟩
    intro seg hseg
    rw [List.mem_singleton.mp hseg]
    exact hcnt ▸ le_max_left _ _
  | cons sn rest ih =>
    intro cur cnt hg hcnt hl
    have hsn : goodStr (jsTrim sn) := hl sn (List.mem_cons_self _ _)
    by_cases h15 : cnt < 15
    · have heq : buildRawGo cur cnt (sn :: rest)
          = buildRawGo (cur ++ ' ' :: jsTrim sn) (cnt + jsWordCount (jsTrim sn)) rest := by
        simp [buildRawGo, h15]
      obtain ⟨hcount, hgood⟩ := jsWordCount_append_sep cur (jsTrim sn) hg hsn
      have ih' := ih (cur ++ ' ' :: jsTrim sn) (cnt + jsWordCount (jsTrim sn)) hgood
        (by rw [hcount, hcnt]) (fun x hx => hl x (List.mem_cons_of_mem _ hx))
      rw [heq]
      refine ⟨ih'.1, ?_, ih'.2.2.1, ?_⟩
      · rw [ih'.2.1, List.map_cons]
        exact joinSp_append_cons cur (jsTrim sn) (rest.map jsTrim)
      · intro seg hseg
        have hb := ih'.2.2.2 seg hseg
        have hstep : max (cnt + jsWordCount (jsTrim sn)) (14 + maxT rest)
            ≤ 14 + maxT (sn :: rest) := by
          have h1 : jsWordCount (jsTrim sn) ≤ maxT (sn :: rest) := by
            rw [maxT_cons]
            exact le_max_left _ _
          have h2 : maxT rest ≤ maxT (sn :: rest) := by
            rw [maxT_cons]
            exact le_max_right _ _
          exact max_le (by omega) (by omega)
        exact le_trans hb (le_trans hstep (le_max_right _ _))
    · have heq : buildRawGo cur cnt (sn :: rest)
          = cur :: buildRawGo (jsTrim sn) (jsWordCount (jsTrim sn)) rest := by
        simp [buildRawGo, h15]
      have ih' := ih (jsTrim sn) (jsWordCount (jsTrim sn)) hsn rfl
        (fun x hx => hl x (List.mem_cons_of_mem _ hx))
      rw [heq]
      refine ⟨by simp, ?_, ?_, ?_⟩
      · rw [joinSp_cons_of_ne_nil cur _ ih'.1, ih'.2.1, List.map_cons,
          joinSp_cons_of_ne_nil cur _ (by simp)]
      · intro seg hseg
        cases hrec : buildRawGo (jsTrim sn) (jsWordCount (jsTrim sn)) rest with
        | nil => exact absurd hrec ih'.1
        | cons a l' =>
          rw [hrec] at hseg
          have hdl : (cur :: a :: l').dropLast = cur :: (a :: l').dropLast := rfl
          rw [hdl] at hseg
          rcases List.mem_cons.mp hseg with rfl | hmem
          · omega
          · exact ih'.2.2.1 seg (by rw [hrec]; exact hmem)
      · intro seg hseg
        rcases List.mem_cons.mp hseg with rfl | hmem
        · exact hcnt ▸ le_max_left _ _
        · have hb := ih'.2.2.2 seg hmem
          have h1 : jsWordCount (jsTrim sn) ≤ maxT (sn :: rest) := by
            rw [maxT_cons]
            exact le_max_left _ _
          have h2 : maxT rest ≤ maxT (sn :: rest) := by
            rw [maxT_cons]
            exact le_max_right _ _
          have : max (jsWordCount (jsTrim sn)) (14 + maxT rest)
              ≤ 14 + maxT (sn :: rest) := max_le (by omega) (by omega)
          exact le_trans hb (le_trans this (le_max_right _ _))

/-- The raw-segment phase: nonempty output, text preservation, the 15-word
floor on all non-final segments, and the `14 + maxT` bound on all segments. -/
theorem buildRaw_spec (l : List Str) (hne : l ≠ [])
    (hl : ∀ sn ∈ l, goodStr (jsTrim sn)) :
    buildRaw l ≠ [] ∧
    joinSp (buildRaw l) = joinSp (l.map jsTrim) ∧
    (∀ seg ∈ (buildRaw l).dropLast, 15 ≤ jsWordCount seg) ∧
    (∀ seg ∈ buildRaw l, jsWordCount seg ≤ 14 + maxT l) := by
  cases l with
  | nil => exact absurd rfl hne
  | cons sn rest =>
    have hsn : goodStr (jsTrim sn) := hl sn (List.mem_cons_self _ _)
    have h := buildRawGo_spec rest (jsTrim sn) (jsWordCount (jsTrim sn)) hsn rfl
      (fun x hx => hl x (List.mem_cons_of_mem _ hx))
    refine ⟨h.1, ?_, h.2.2.1, ?_⟩
    · rw [show buildRaw (sn :: rest)
        = buildRawGo (jsTrim sn) (jsWordCount (jsTrim sn)) rest from rfl, h.2.1,
        List.map_cons]
    · intro seg hseg
      have hb := h.2.2.2 seg hseg
      have h1 : jsWordCount (jsTrim sn) ≤ maxT (sn :: rest) := by
        rw [maxT_cons]
        exact le_max_left _ _
      have h2 : maxT rest ≤ maxT (sn :: rest) := by
        rw [maxT_cons]
        exact le_max_right _ _
      have : max (jsWordCount (jsTrim sn)) (14 + maxT rest) ≤ 14 + maxT (sn :: rest) :=
        max_le (by omega) (by omega)
      omega

/-- The repair pass is the identity on any raw-segment list whose non-final
segments all meet the 15-word floor — which, by `buildRaw_spec`, is every
raw-segment list the greedy phase can produce. -/
theorem repairGo_id_of_floor :
    ∀ (fuel : Nat) (l : List Str),
      (∀ seg ∈ l.dropLast, 15 ≤ jsWordCount seg) → repairGo fuel l = l := by
  intro fuel
  induction fuel with
  | zero => intro l _; rfl
  | succ f ih =>
    intro l hl
    match l with
    | [] => rfl
    | [seg] => rfl
    | seg :: nxt :: rest =>
      have hmem : seg ∈ (seg :: nxt :: rest).dropLast := by
        rw [show (seg :: nxt :: rest).dropLast = seg :: (nxt :: rest).dropLast from rfl]
        exact List.mem_cons_self _ _
      have h15 : ¬ jsWordCount seg < 15 := by
        have := hl seg hmem
        omega
      have htail : ∀ x ∈ (nxt :: rest).dropLast, 15 ≤ jsWordCount x := by
        intro x hx
        refine hl x ?_
        rw [show (seg :: nxt :: rest).dropLast = seg :: (nxt :: rest).dropLast from rfl]
        exact List.mem_cons_of_mem _ hx
      show repairGo (f + 1) (seg :: nxt :: rest) = seg :: nxt :: rest
      unfold repairGo
      rw [if_neg h15]
      rw [ih (nxt :: rest) htail]

/-- The repair pass never changes the greedy output: only the final raw
segment can be below the floor, and the repair skips the final segment. -/
theorem splitScript_eq_buildRaw (s : Str)
    (hgood : ∀ sn ∈ sentencesOf s, goodStr (jsTrim sn)) :
    splitScript s = buildRaw (sentencesOf s) := by
  unfold splitScript repairPass
  exact repairGo_id_of_floor _ _
    (buildRaw_spec (sentencesOf s) (sentencesOf_ne_nil s) hgood).2.2.1

/-! ### C2 — coverage -/

/-- C2: concatenating all segment texts with single-space boundaries
reproduces the trimmed sentences of the script, in order, each exactly once
(sentences as produced by the terminator-splitting rule; a script with no
terminator is one sentence).  No sentence is dropped or duplicated. -/
theorem splitScript_coverage (script : Str) :
    joinSp (splitScript script) = joinSp ((sentencesOf script).map jsTrim) := by
  by_cases h : (matchSentences script).isEmpty = true
  · have hs : sentencesOf script = [script] := by
      unfold sentencesOf
      rw [if_pos h]
    unfold splitScript
    rw [hs]
    rfl
  · have hg := sentencesOf_good script h
    rw [splitScript_eq_buildRaw script hg]
    exact (buildRaw_spec _ (sentencesOf_ne_nil script) hg).2.1

/-- C1 (amended): the 30-word ceiling holds conditionally: whenever every
sentence of the script trims to at most 16 words, every returned segment
has at most 30 words (the greedy loop appends a sentence only while the
accumulated count is at most 14, and the repair pass never changes the
greedy output). -/
theorem splitScript_ceiling_of_short_sentences (script : Str)
    (h : ∀ sn ∈ sentencesOf script, jsWordCount (jsTrim sn) ≤ 16) :
    ∀ seg ∈ splitScript script, jsWordCount seg ≤ 30 := by
  by_cases hm : (matchSentences script).isEmpty = true
  · have hs : sentencesOf script = [script] := by
      unfold sentencesOf
      rw [if_pos hm]
    have hone : splitScript script = [jsTrim script] := by
      unfold splitScript
      rw [hs]
      rfl
    intro seg hseg
    rw [hone, List.mem_singleton] at hseg
    subst hseg
    have := h script (by rw [hs]; exact List.mem_cons_self _ _)
    omega
  · have hg := sentencesOf_good script hm
    rw [splitScript_eq_buildRaw script hg]
    intro seg hseg
    have hb := (buildRaw_spec _ (sentencesOf_ne_nil script) hg).2.2.2 seg hseg
    have hmax : maxT (sentencesOf script) ≤ 16 := maxT_le 16 _ h
    omega

/-- A two-sentence 21-word script whose sentences stay within 16 words, for
the C1 witness. -/
def wShortScript : Str := str "a b c d e. f g h i j k l m n o p q r s t u."

/-- C1 (witness): the amended ceiling at a concrete script — every sentence
trims to at most 16 words, and every returned segment has at most 30. -/
theorem splitScript_ceiling_of_short_sentences_witness :
    (∀ sn ∈ sentencesOf wShortScript, jsWordCount (jsTrim sn) ≤ 16) ∧
    (∀ seg ∈ splitScript wShortScript, jsWordCount seg ≤ 30) := by
  refine ⟨by decide, splitScript_ceiling_of_short_sentences wShortScript (by decide)⟩

/-- The repair recursion does not depend on the fuel once the fuel covers
the list length (each step consumes at least one list entry). -/
theorem repairGo_fuel_eq :
    ∀ (f1 f2 : Nat) (l : List Str), l.length ≤ f1 → l.length ≤ f2 →
      repairGo f1 l = repairGo f2 l := by
  intro f1
  induction f1 with
  | zero =>
    intro f2 l h1 _
    have : l = [] := List.length_eq_zero.mp (Nat.le_zero.mp h1)
    subst this
    cases f2 <;> rfl
  | succ f ih =>
    intro f2 l h1 h2
    match l with
    | [] => cases f2 <;> rfl
    | [seg] =>
      match f2, h2 with
      | f2' + 1, _ => rfl
    | seg :: nxt :: rest =>
      match f2, h2 with
      | f2' + 1, h2 =>
        have hlen1 : rest.length + 2 ≤ f + 1 := by simpa using h1
        have hlen2 : rest.length + 2 ≤ f2' + 1 := by simpa using h2
        show repairGo (f + 1) (seg :: nxt :: rest) = repairGo (f2' + 1) (seg :: nxt :: rest)
        unfold repairGo
        by_cases h15 : jsWordCount seg < 15
        · rw [if_pos h15, if_pos h15]
          cases hb : (if 15 < jsWordCount nxt then
              match sentencesOf nxt with
              | b :: b2 :: bs =>
                if jsWordCount seg + jsWordCount b ≤ 22 then
                  some (seg ++ ' ' :: b, joinSp (b2 :: bs))
                else none
              | _ => none
            else none : Option (Str × Str)) with
          | none =>
            simp only [hb]
            by_cases h30 : jsWordCount (seg ++ ' ' :: nxt) ≤ 30
            · rw [if_pos h30, if_pos h30]
              exact congrArg _ (ih f2' rest (by omega) (by omega))
            · rw [if_neg h30, if_neg h30]
              exact congrArg _ (ih f2' (nxt :: rest) (by simp; omega) (by simp; omega))
          | some p =>
            obtain ⟨newSeg, newDonor⟩ := p
            simp only [hb]
            exact congrArg _ (ih f2' (newDonor :: rest) (by simp; omega) (by simp; omega))
        · rw [if_neg h15, if_neg h15]
          exact congrArg _ (ih f2' (nxt :: rest) (by simp; omega) (by simp; omega))

/-- One-step unfolding of the repair recursion on a two-or-more list. -/
theorem repairGo_cons_cons (fuel : Nat) (seg nxt : Str) (rest : List Str) :
    repairGo (fuel + 1) (seg :: nxt :: rest) =
      if jsWordCount seg < 15 then
        match (if 15 < jsWordCount nxt then
            match sentencesOf nxt with
            | b :: b2 :: bs =>
              if jsWordCount seg + jsWordCount b ≤ 22 then
                some (seg ++ ' ' :: b, joinSp (b2 :: bs))
              else none
            | _ => none
          else none : Option (Str × Str)) with
        | some (newSeg, newDonor) => newSeg :: repairGo fuel (newDonor :: rest)
        | none =>
          if jsWordCount (seg ++ ' ' :: nxt) ≤ 30 then
            (seg ++ ' ' :: nxt) :: repairGo fuel rest
          else seg :: repairGo fuel (nxt :: rest)
      else seg :: repairGo fuel (nxt :: rest) := rfl

/-- C7 (amended): for a raw segment below the 15-word floor that is not the
last, the repair pass first borrows the first (untrimmed) sentence of the
following raw segment — but only when that donor has more than 15 words,
splits into more than one sentence, and the combined count stays within the
22-word ceiling — removing it from the donor, and in that case applies no
further repair even when the segment remains below the floor; when
borrowing does not apply, it merges the entire following raw segment when
the combined count is at most 30 words; when neither repair applies, the
short segment is kept unchanged. -/
theorem repairPass_strategy_order (seg nxt : Str) (rest : List Str)
    (h : jsWordCount seg < 15) :
    repairPass (seg :: nxt :: rest) =
      if 15 < jsWordCount nxt ∧ 1 < (sentencesOf nxt).length ∧
          jsWordCount seg + jsWordCount ((sentencesOf nxt).headI) ≤ 22 then
        (seg ++ ' ' :: (sentencesOf nxt).headI) ::
          repairPass (joinSp ((sentencesOf nxt).tail) :: rest)
      else if jsWordCount (seg ++ ' ' :: nxt) ≤ 30 then
        (seg ++ ' ' :: nxt) :: repairPass rest
      else seg :: repairPass (nxt :: rest) := by
  by_cases hcond : 15 < jsWordCount nxt ∧ 1 < (sentencesOf nxt).length ∧
      jsWordCount seg + jsWordCount ((sentencesOf nxt).headI) ≤ 22
  · obtain ⟨b, b2, bs, hsn⟩ : ∃ b b2 bs, sentencesOf nxt = b :: b2 :: bs := by
      have h1 := hcond.2.1
      cases hm : sentencesOf nxt with
      | nil => rw [hm] at h1; simp at h1
      | cons b tl =>
        cases tl with
        | nil => rw [hm] at h1; simp at h1
        | cons b2 bs => exact ⟨b, b2, bs, rfl⟩
    have hhead : (sentencesOf nxt).headI = b := by rw [hsn]; rfl
    have htail : (sentencesOf nxt).tail = b2 :: bs := by rw [hsn]; rfl
    have h22 : jsWordCount seg + jsWordCount b ≤ 22 := by
      have h2 := hcond.2.2
      rwa [hhead] at h2
    have hbo : (if 15 < jsWordCount nxt then
        match sentencesOf nxt with
        | b :: b2 :: bs =>
          if jsWordCount seg + jsWordCount b ≤ 22 then
            some (seg ++ ' ' :: b, joinSp (b2 :: bs))
          else none
        | _ => none
      else none : Option (Str × Str)) = some (seg ++ ' ' :: b, joinSp (b2 :: bs)) := by
      rw [if_pos hcond.1, hsn]
      show (if jsWordCount seg + jsWordCount b ≤ 22 then
          some (seg ++ ' ' :: b, joinSp (b2 :: bs)) else none) = _
      rw [if_pos h22]
    have hstep : repairPass (seg :: nxt :: rest)
        = (seg ++ ' ' :: b) :: repairGo (rest.length + 1) (joinSp (b2 :: bs) :: rest) := by
      unfold repairPass
      show repairGo (rest.length + 1 + 1) (seg :: nxt :: rest) = _
      rw [repairGo_cons_cons, if_pos h, hbo]
    rw [if_pos hcond, hhead, htail, hstep]
    refine congrArg _ ?_
    unfold repairPass
    exact repairGo_fuel_eq (rest.length + 1) ((joinSp (b2 :: bs) :: rest).length) _
      (by simp) (by simp)
  · have hbnone : (if 15 < jsWordCount nxt then
        match sentencesOf nxt with
        | b :: b2 :: bs =>
          if jsWordCount seg + jsWordCount b ≤ 22 then
            some (seg ++ ' ' :: b, joinSp (b2 :: bs))
          else none
        | _ => none
      else none : Option (Str × Str)) = none := by
      by_cases h16 : 15 < jsWordCount nxt
      · rw [if_pos h16]
        cases hsn : sentencesOf nxt with
        | nil => rfl
        | cons b tl =>
          cases tl with
          | nil => rfl
          | cons b2 bs =>
            have h22 : ¬ jsWordCount seg + jsWordCount b ≤ 22 := by
              intro h22
              refine hcond ⟨h16, by rw [hsn]; simp, ?_⟩
              rw [hsn]
              simpa [List.headI] using h22
            show (if jsWordCount seg + jsWordCount b ≤ 22 then
                some (seg ++ ' ' :: b, joinSp (b2 :: bs)) else none) = none
            rw [if_neg h22]
      · rw [if_neg h16]
    rw [if_neg hcond]
    by_cases h30 : jsWordCount (seg ++ ' ' :: nxt) ≤ 30
    · have hstep : repairPass (seg :: nxt :: rest)
          = (seg ++ ' ' :: nxt) :: repairGo (rest.length + 1) rest := by
        unfold repairPass
        show repairGo (rest.length + 1 + 1) (seg :: nxt :: rest) = _
        rw [repairGo_cons_cons, if_pos h, hbnone, if_pos h30]
      rw [if_pos h30, hstep]
      refine congrArg _ ?_
      unfold repairPass
      exact repairGo_fuel_eq (rest.length + 1) rest.length rest (by omega) (le_refl _)
    · have hstep : repairPass (seg :: nxt :: rest)
          = seg :: repairGo (rest.length + 1) (nxt :: rest) := by
        unfold repairPass
        show repairGo (rest.length + 1 + 1) (seg :: nxt :: rest) = _
        rw [repairGo_cons_cons, if_pos h, hbnone, if_neg h30]
      rw [if_neg h30, hstep]
      rfl

/-- C7 (witness): the amended strategy order at the concrete borrow input —
the 3-word segment borrows the donor's first sentence and the remainder of
the donor continues through the pass. -/
theorem repairPass_strategy_order_witness :
    repairPass [cexShortSeg, cexDonorSeg]
      = (cexShortSeg ++ ' ' :: (sentencesOf cexDonorSeg).headI) ::
        repairPass [joinSp ((sentencesOf cexDonorSeg).tail)] := by
  have h := repairPass_strategy_order cexShortSeg cexDonorSeg [] (by decide)
  exact h.trans (by decide)
